import Mathlib

/-!
# api_executor: command gatekeeper, audit store and secure file download

A shallow embedding of the request handlers of `internal/api/handlers.go`
together with the code they call (`internal/core/executor.go`,
`internal/core/logger.go`, `internal/database/db.go`), followed by theorems
about them.

Conventions of the embedding.

* A Go `string` is a Lean `String`; the functions of `strings` and
  `path/filepath` work on its list of characters.
* Whatever the handlers obtain from outside the process (the JSON decoder, the
  operating system running a child process, the SQL driver, the clock, the
  filesystem) is a field of an explicit `World` / `FileSystem` value, so that
  every theorem quantifies over all behaviours of the outside.
* A handler returns the response it writes, the environment it leaves behind
  and the list of outside calls it made, in order.
* `path/filepath` is modelled for Unix (separator `/`, no volume names).
-/

set_option autoImplicit false

namespace ApiExecutor

/-! ## Configuration (`internal/core/config.go`) -/

/-- The Go struct `core.CommandDefinition`: one allow-list entry. -/
structure CommandDefinition where
  Name : String
  Command : String
  Args : List String
  deriving DecidableEq, Repr

/-- The Go struct `core.FileServerConfig`. -/
structure FileServerConfig where
  Enabled : Bool
  SecureDir : String
  deriving DecidableEq, Repr

/-- The Go struct `core.ExecutorConfig`. -/
structure ExecutorConfig where
  Enabled : Bool
  Commands : List CommandDefinition
  deriving DecidableEq, Repr

/-- The Go struct `core.Config`, restricted to the two sections the handlers read. -/
structure Config where
  FileServer : FileServerConfig
  Executor : ExecutorConfig
  deriving DecidableEq, Repr

/-! ## Operational logger (`internal/core/logger.go`) -/

/-- The Go type `core.LogLevel` with its four `iota` constants. -/
inductive LogLevel
  | LevelDebug
  | LevelInfo
  | LevelWarn
  | LevelError
  deriving DecidableEq, Repr

/-- The integer value of a `LogLevel` constant. -/
def LogLevel.toNat : LogLevel → Nat
  | .LevelDebug => 0
  | .LevelInfo => 1
  | .LevelWarn => 2
  | .LevelError => 3

/-- The Go struct `logEntry`: one structured line of the operational log. -/
structure logEntry where
  Timestamp : String
  Level : String
  Message : String
  deriving DecidableEq, Repr

/-- The Go struct `core.Logger`: its threshold and the entries written to its writer so far. -/
structure Logger where
  level : LogLevel
  written : List logEntry
  deriving DecidableEq, Repr

/-- The method `(*Logger).log`: the entry is written when the threshold allows the level. -/
def Logger.log (l : Logger) (now : String) (level : LogLevel) (levelStr message : String) :
    Logger :=
  if l.level.toNat ≤ level.toNat then
    { l with written := l.written ++ [⟨now, levelStr, message⟩] }
  else l

/-- The method `(*Logger).Error`. -/
def Logger.Error (l : Logger) (now : String) (message : String) : Logger :=
  l.log now .LevelError "ERROR" message

/-! ## Audit store (`internal/database/db.go`) -/

/-- The Go struct `database.ActionHistory`: one row of the table `action_history`. -/
structure ActionHistory where
  ID : Int
  Timestamp : String
  Command : String
  Status : String
  Output : String
  deriving DecidableEq, Repr

/-- The table `action_history`: its rows in insertion order and the largest id handed out
so far (`AUTOINCREMENT`). -/
structure DB where
  rows : List ActionHistory
  seq : Int
  deriving DecidableEq, Repr

/-- The method `(*DB).RecordAction`. `prepareErr` and `execErr` are what the SQL driver
answers to `Prepare` and to `Exec`; the result is the store afterwards, the returned id and
the returned error. -/
def DB.RecordAction (db : DB) (prepareErr execErr : Option String) (now : String)
    (command status output : String) : DB × Int × Option String :=
  match prepareErr with
  | some err => (db, 0, some err)
  | none =>
    match execErr with
    | some err => (db, 0, some err)
    | none =>
      let id := db.seq + 1
      ({ rows := db.rows ++ [⟨id, now, command, status, output⟩], seq := id }, id, none)

/-! ## Command execution (`internal/core/executor.go`) -/

/-- How a child process started by `os/exec` ended. -/
inductive ProcessFate
  /-- The process ran and exited by itself with this exit status (`0` is a clean exit). -/
  | exited (code : Nat)
  /-- The process was terminated by a signal that was not sent by the deadline. -/
  | signaled (signal : String)
  /-- The process could not be started. -/
  | startFailed (reason : String)
  /-- The 30 second deadline of the context expired and `os/exec` killed the process. -/
  | deadlineExceeded
  deriving DecidableEq, Repr

/-- What `cmd.CombinedOutput()` observes: the captured bytes and how the process ended. -/
structure ProcessRun where
  output : String
  fate : ProcessFate
  deriving DecidableEq, Repr

/-- The text of the error that `cmd.CombinedOutput()` returns (`none` is Go's `nil`).
A process killed by the deadline is killed with `SIGKILL`, and its wait status is
reported exactly like that of any other process that received `SIGKILL`. -/
def ProcessFate.waitError : ProcessFate → Option String
  | .exited 0 => none
  | .exited (n + 1) => some ("exit status " ++ toString (n + 1))
  | .signaled signal => some ("signal: " ++ signal)
  | .startFailed reason => some reason
  | .deadlineExceeded => some "signal: killed"

/-- An outside call made by a handler. -/
inductive Effect
  /-- Call `exec.CommandContext(ctx, program, args...)` under a deadline and run it. -/
  | spawn (timeoutSeconds : Nat) (program : String) (args : List String)
  /-- Call `env.DB.RecordAction(command, status, output)`. -/
  | recordAction (command status output : String)
  deriving DecidableEq, Repr

/-- The Go struct `api.ExecuteCommandRequest`. -/
structure ExecuteCommandRequest where
  Name : String
  deriving DecidableEq, Repr

/-- Everything outside the process that `ExecuteCommandHandler` consults. -/
structure World where
  /-- The result of `json.NewDecoder(r.Body).Decode(&req)`: `none` is a decoding error. -/
  decodeJSON : String → Option ExecuteCommandRequest
  /-- The operating system running `program args` under a deadline in seconds. -/
  run : Nat → String → List String → ProcessRun
  /-- The answer of the SQL driver to `db.Prepare`. -/
  sqlPrepareErr : Option String
  /-- The answer of the SQL driver to `stmt.Exec`. -/
  sqlExecErr : Option String
  /-- The clock read by `RecordAction`. -/
  dbNow : String
  /-- The clock read by the logger. -/
  logNow : String

/-- The function `core.ExecuteCommand`: run the command of the definition with its fixed
arguments under a 30 second deadline; return the captured output and, when
`CombinedOutput` returned an error, that error wrapped with the name of the command. -/
def ExecuteCommand (w : World) (commandDef : CommandDefinition) :
    (String × Option String) × List Effect :=
  let run := w.run 30 commandDef.Command commandDef.Args
  let called := [Effect.spawn 30 commandDef.Command commandDef.Args]
  match run.fate.waitError with
  | some err =>
    ((run.output, some ("command '" ++ commandDef.Name ++ "' failed: " ++ err)), called)
  | none => ((run.output, none), called)

/-! ## Request handlers (`internal/api/handlers.go`) -/

/-- The Go struct `api.APIEnv`. -/
structure APIEnv where
  Config : Config
  Logger : Logger
  DB : DB
  deriving DecidableEq, Repr

/-- The parts of `*http.Request` that exist before a handler runs. -/
structure Request where
  Method : String
  Path : String
  Header : List (String × String)
  Body : String
  deriving DecidableEq, Repr

/-- The Go struct `api.ExecuteCommandResponse`. -/
structure ExecuteCommandResponse where
  Output : String
  Error : String
  deriving DecidableEq, Repr

/-- What a handler writes as the body of its response. -/
inductive Body
  /-- The plain text written by `http.Error` and `http.NotFound`. -/
  | text (message : String)
  /-- The value handed to `json.NewEncoder(w).Encode`. -/
  | executeJSON (r : ExecuteCommandResponse)
  /-- What `http.ServeFile` writes for the file at this path. -/
  | file (content : String)
  deriving DecidableEq, Repr

/-- The response: HTTP status code and body. -/
structure Response where
  code : Nat
  body : Body
  deriving DecidableEq, Repr

/-- The function `http.Error(w, message, code)`. -/
def httpError (message : String) (code : Nat) : Response := ⟨code, .text message⟩

/-- What `ExecuteCommandHandler` leaves behind. -/
structure HandlerResult where
  response : Response
  env : APIEnv
  effects : List Effect
  deriving DecidableEq, Repr

/-- The loop `for _, cmd := range env.Config.Executor.Commands` of `ExecuteCommandHandler`:
the first entry whose `Name` equals the requested name, `none` for a `nil` `cmdDef`. -/
def findCommand (commands : List CommandDefinition) (name : String) :
    Option CommandDefinition :=
  match commands with
  | [] => none
  | cmd :: rest => if cmd.Name = name then some cmd else findCommand rest name

/-- The method `(*APIEnv).ExecuteCommandHandler`. -/
def ExecuteCommandHandler (env : APIEnv) (w : World) (r : Request) : HandlerResult :=
  match w.decodeJSON r.Body with
  | none => ⟨httpError "Invalid request body" 400, env, []⟩
  | some req =>
    match findCommand env.Config.Executor.Commands req.Name with
    | none => ⟨httpError "Command not found" 404, env, []⟩
    | some cmdDef =>
      let ran := ExecuteCommand w cmdDef
      let output := ran.1.1
      let err := ran.1.2
      let status := if err.isSome then "failure" else "success"
      let errMsg := match err with
        | some e => e
        | none => ""
      let recorded := env.DB.RecordAction w.sqlPrepareErr w.sqlExecErr w.dbNow req.Name status
        output
      let logger := match recorded.2.2 with
        | some dbErr =>
          env.Logger.Error w.logNow ("Failed to record action to database: " ++ dbErr)
        | none => env.Logger
      let code := if err.isSome then 500 else 200
      ⟨⟨code, .executeJSON ⟨output, errMsg⟩⟩, { env with Logger := logger, DB := recorded.1 },
        ran.2 ++ [Effect.recordAction req.Name status output]⟩

/-! ## `strings` and `path/filepath` of the Go standard library (Unix) -/

/-- The function `strings.Contains(s, substr)`. -/
def Contains (s substr : String) : Bool := decide (substr.data <:+: s.data)

/-- The function `strings.HasPrefix(s, pre)`: a comparison of the leading bytes. -/
def HasPrefix (s pre : String) : Bool := decide (pre.data <+: s.data)

/-- The function `strings.TrimPrefix(s, pre)`. -/
def TrimPrefix (s pre : String) : String :=
  if HasPrefix s pre then ⟨s.data.drop pre.data.length⟩ else s

/-- The elements of a path: the pieces between its separators, as
`strings.Split(path, "/")` returns them (empty pieces included). -/
def splitSlash : List Char → List (List Char)
  | [] => [[]]
  | c :: cs =>
    if c = '/' then [] :: splitSlash cs
    else
      match splitSlash cs with
      | [] => [[c]]
      | first :: rest => (c :: first) :: rest

/-- The elements written one after the other with a separator in between, as
`strings.Join(elems, "/")`. -/
def joinSlash : List (List Char) → List Char
  | [] => []
  | [e] => e
  | e :: next :: rest => e ++ '/' :: joinSlash (next :: rest)

/-- One round of the loop of `filepath.Clean`, on the element that starts at the read
position. `out` holds the elements written to the buffer so far, the last one first.
An empty element and `.` are skipped; `..` removes the last element when that is not
itself a `..`, is dropped at the root of a rooted path, and is kept otherwise; any
other element is appended. -/
def cleanStep (rooted : Bool) (out : List (List Char)) (elem : List Char) :
    List (List Char) :=
  if elem = [] ∨ elem = ['.'] then out
  else if elem = ['.', '.'] then
    match out with
    | top :: rest =>
      if top ≠ ['.', '.'] then rest
      else if rooted then out
      else elem :: out
    | [] => if rooted then out else [elem]
  else elem :: out

/-- The function `filepath.Clean` on the characters of the path. -/
def cleanChars (path : List Char) : List Char :=
  match path with
  | [] => ['.']
  | c :: _ =>
    let rooted : Bool := c = '/'
    let out := (splitSlash path).foldl (cleanStep rooted) []
    if rooted then '/' :: joinSlash out.reverse
    else if out = [] then ['.']
    else joinSlash out.reverse

/-- The function `filepath.Clean`. -/
def Clean (path : String) : String := ⟨cleanChars path.data⟩

/-- The function `filepath.IsAbs` (Unix): the path starts with a separator. -/
def IsAbs (path : String) : Bool := HasPrefix path "/"

/-- The function `filepath.Join`: the elements from the first non-empty one on, joined
with separators and cleaned; the empty string when every element is empty. -/
def Join : List String → String
  | [] => ""
  | e :: rest =>
    if e = "" then Join rest
    else Clean ⟨joinSlash ((e :: rest).map String.data)⟩

/-- The function `filepath.Abs` (Unix). `getwd` is the answer of `os.Getwd`, which is
asked only for a path that is not absolute. -/
def Abs (getwd : Except String String) (path : String) : Except String String :=
  if IsAbs path then .ok (Clean path)
  else
    match getwd with
    | .error err => .error err
    | .ok wd => .ok (Join [wd, path])

/-! ## File download (`internal/api/handlers.go`) -/

/-- The error of `os.Stat`: the file does not exist, or any other failure of the system
call (permission denied, name too long, invalid argument, ...). -/
inductive StatError
  | notExist
  | other (errno : String)
  deriving DecidableEq, Repr

/-- The part of `os.FileInfo` the handler reads. -/
structure FileInfo where
  Name : String
  IsDir : Bool
  deriving DecidableEq, Repr

/-- The filesystem and working directory as the handler finds them. -/
structure FileSystem where
  /-- The answer of `os.Getwd`. -/
  Getwd : Except String String
  /-- The answer of the `stat` system call for a path. -/
  Stat : String → Except StatError FileInfo
  /-- What `http.ServeFile` writes for a request and a path. -/
  ServeFile : Request → String → Response

/-- A call of `DownloadFileHandler` that concerns the filesystem. -/
inductive FsOp
  | abs (path : String)
  | stat (path : String)
  | serveFile (path : String)
  deriving DecidableEq, Repr

/-- How a handler ends: it has written a response, or the goroutine panics. -/
inductive Completion
  | responded (r : Response)
  | panicked (reason : String)
  deriving DecidableEq, Repr

/-- What `DownloadFileHandler` leaves behind: how it ended and the filesystem calls it
made, in order. -/
structure DownloadResult where
  completion : Completion
  ops : List FsOp
  deriving DecidableEq, Repr

/-- The function `os.Stat` as Go returns it: a file-info value that is `nil` (`none`)
exactly when the error is not `nil`. -/
def osStat (fs : FileSystem) (name : String) : Option FileInfo × Option StatError :=
  match fs.Stat name with
  | .ok info => (some info, none)
  | .error err => (none, some err)

/-- The function `os.IsNotExist`. -/
def IsNotExist (err : Option StatError) : Bool := err = some StatError.notExist

/-- The comparison of line 167 of `handlers.go`, `!strings.HasPrefix(absFilePath,
absSecureDir)`: `true` when the handler answers `Access denied`. -/
def prefixCheckDenies (absFilePath absSecureDir : String) : Bool :=
  !HasPrefix absFilePath absSecureDir

/-- The method `(*APIEnv).DownloadFileHandler`. -/
def DownloadFileHandler (env : APIEnv) (fs : FileSystem) (r : Request) : DownloadResult :=
  if !env.Config.FileServer.Enabled then
    ⟨.responded (httpError "File server is disabled" 404), []⟩
  else
    let fileName := TrimPrefix r.Path "/api/v1/files/"
    if Contains fileName ".." || Contains fileName "/" || Contains fileName "\\" then
      ⟨.responded (httpError "Invalid filename" 400), []⟩
    else
      let secureDir := env.Config.FileServer.SecureDir
      let filePath := Join [secureDir, fileName]
      match Abs fs.Getwd secureDir with
      | .error _ => ⟨.responded (httpError "Internal server error" 500), [.abs secureDir]⟩
      | .ok absSecureDir =>
        match Abs fs.Getwd filePath with
        | .error _ =>
          ⟨.responded (httpError "Internal server error" 500),
            [.abs secureDir, .abs filePath]⟩
        | .ok absFilePath =>
          if prefixCheckDenies absFilePath absSecureDir then
            ⟨.responded (httpError "Access denied" 403), [.abs secureDir, .abs filePath]⟩
          else
            let statted := osStat fs filePath
            let info := statted.1
            let err := statted.2
            if IsNotExist err then
              ⟨.responded (httpError "404 page not found" 404),
                [.abs secureDir, .abs filePath, .stat filePath]⟩
            else
              match info with
              | none =>
                ⟨.panicked "invalid memory address or nil pointer dereference",
                  [.abs secureDir, .abs filePath, .stat filePath]⟩
              | some fi =>
                if fi.IsDir then
                  ⟨.responded (httpError "404 page not found" 404),
                    [.abs secureDir, .abs filePath, .stat filePath]⟩
                else
                  ⟨.responded (fs.ServeFile r filePath),
                    [.abs secureDir, .abs filePath, .stat filePath, .serveFile filePath]⟩

/-- The elements of an absolute path that name something: the pieces between separators
that are not empty. -/
def pathComponents (path : String) : List (List Char) :=
  (splitSlash path.data).filter (fun e => e ≠ [])

/-- The path `candidate` is `root` itself or lies under `root`, element by element. -/
def withinRoot (root candidate : String) : Prop :=
  pathComponents root <+: pathComponents candidate

instance (root candidate : String) : Decidable (withinRoot root candidate) := by
  unfold withinRoot; infer_instance

/-- The outcome of an invocation as the specification classifies it (section 3,
`InvocationResult.outcome`). -/
inductive Outcome
  | Succeeded
  | Failed
  | TimedOut
  deriving DecidableEq, Repr

/-- The classification in the words of the specification (section 4.1): expiry of the
timeout is `TimedOut`, a clean exit is `Succeeded`, and every other end of the process
(non-zero exit status, termination by a signal, failure to start) is `Failed`. -/
def specOutcome : ProcessFate → Outcome
  | .exited 0 => .Succeeded
  | .exited (_ + 1) => .Failed
  | .signaled _ => .Failed
  | .startFailed _ => .Failed
  | .deadlineExceeded => .TimedOut

/-- The effect is the start of a process. -/
def Effect.isSpawn : Effect → Bool
  | .spawn _ _ _ => true
  | .recordAction _ _ _ => false

/-- The effect is an append to the audit store. -/
def Effect.isRecordAction : Effect → Bool
  | .spawn _ _ _ => false
  | .recordAction _ _ _ => true

/-- The error that `RecordAction` returns in a world: the answer to `Prepare` when that
fails, and the answer to `Exec` otherwise. -/
def World.sqlError (w : World) : Option String :=
  match w.sqlPrepareErr with
  | some err => some err
  | none => w.sqlExecErr

/-! ## Example configuration and worlds -/

/-- An allow-list of two commands and a secure directory relative to the working directory. -/
def exampleEnv : APIEnv :=
  { Config :=
      { FileServer := ⟨true, "./secure"⟩
        Executor := ⟨true, [⟨"uptime", "uptime", []⟩, ⟨"disk", "df", ["-h"]⟩]⟩ }
    Logger := ⟨.LevelInfo, []⟩
    DB := ⟨[], 0⟩ }

/-- A world in which the request body is the requested name itself, every process ends as
`run` says, and the SQL driver answers `prepareErr` to `Prepare`. -/
def exampleWorld (run : ProcessRun) (prepareErr : Option String) : World :=
  { decodeJSON := fun body => some ⟨body⟩
    run := fun _ _ _ => run
    sqlPrepareErr := prepareErr
    sqlExecErr := none
    dbNow := "2024-01-01 00:00:00"
    logNow := "2024-01-01T00:00:00Z" }

/-- A request to `/api/v1/execute` whose body names the command. -/
def executeRequest (name : String) : Request := ⟨"POST", "/api/v1/execute", [], name⟩

/-- A request to download the file with this name. -/
def downloadRequest (name : String) : Request :=
  ⟨"GET", "/api/v1/files/" ++ name, [], ""⟩

/-- A filesystem with working directory `/home/app` in which `stat` answers `stat` for
every path and the served file has the content `X`. -/
def exampleFS (stat : Except StatError FileInfo) : FileSystem :=
  { Getwd := .ok "/home/app"
    Stat := fun _ => stat
    ServeFile := fun _ _ => ⟨200, .file "X"⟩ }

/-- An element that `filepath.Clean` writes to a rooted path: not empty, not `.`, not `..`. -/
def realElem (e : List Char) : Prop := e ≠ [] ∧ e ≠ ['.'] ∧ e ≠ ['.', '.']

/-- The elements on the buffer of a rooted clean are real and free of separators. -/
def goodStack (R : List (List Char)) : Prop := ∀ e ∈ R, realElem e ∧ '/' ∉ e

/-! ## Lemmas on path elements -/

theorem splitSlash_ne_nil (s : List Char) : splitSlash s ≠ [] := by
  cases s with
  | nil => simp [splitSlash]
  | cons c cs =>
    simp only [splitSlash]
    split_ifs
    · simp
    · split <;> simp

theorem splitSlash_append_slash (a b : List Char) :
    splitSlash (a ++ '/' :: b) = splitSlash a ++ splitSlash b := by
  induction a with
  | nil => simp [splitSlash]
  | cons c cs ih =>
    simp only [List.cons_append, splitSlash]
    by_cases hc : c = '/'
    · simp [hc, ih]
    · simp only [hc, if_false]
      have ih2 : splitSlash (cs.append ('/' :: b)) = splitSlash cs ++ splitSlash b := ih
      rw [ih2]
      cases h : splitSlash cs with
      | nil => exact absurd h (splitSlash_ne_nil cs)
      | cons f r => simp

theorem splitSlash_of_no_slash (f : List Char) (h : '/' ∉ f) : splitSlash f = [f] := by
  induction f with
  | nil => rfl
  | cons c cs ih =>
    have hc : c ≠ '/' := fun e => h (by simp [e])
    have hcs : '/' ∉ cs := fun e => h (List.mem_cons_of_mem _ e)
    simp [splitSlash, hc, ih hcs]

theorem no_slash_of_mem_splitSlash (s : List Char) :
    ∀ e ∈ splitSlash s, '/' ∉ e := by
  induction s with
  | nil => simp [splitSlash]
  | cons c cs ih =>
    intro e he
    simp only [splitSlash] at he
    by_cases hc : c = '/'
    · simp only [hc, if_true, List.mem_cons] at he
      rcases he with rfl | he
      · simp
      · exact ih e he
    · simp only [hc, if_false] at he
      cases h : splitSlash cs with
      | nil => exact absurd h (splitSlash_ne_nil cs)
      | cons f r =>
        rw [h] at he ih
        simp only [List.mem_cons] at he
        rcases he with rfl | he
        · intro hmem
          rcases List.mem_cons.mp hmem with e | e
          · exact hc e.symm
          · exact ih f (by simp) e
        · exact ih e (by simp [he])

theorem splitSlash_joinSlash (S : List (List Char)) (hne : S ≠ [])
    (h : ∀ e ∈ S, '/' ∉ e) : splitSlash (joinSlash S) = S := by
  induction S with
  | nil => exact absurd rfl hne
  | cons e rest ih =>
    cases rest with
    | nil => simpa [joinSlash] using splitSlash_of_no_slash e (h e (by simp))
    | cons next rest =>
      have h1 := splitSlash_of_no_slash e (h e (by simp))
      have h2 := ih (by simp) (fun x hx => h x (List.mem_cons_of_mem _ hx))
      simp only [joinSlash, splitSlash_append_slash, h1, h2, List.singleton_append]

theorem cleanStep_real (rooted : Bool) (out : List (List Char)) (e : List Char)
    (h : realElem e) : cleanStep rooted out e = e :: out := by
  simp [cleanStep, h.1, h.2.1, h.2.2]

theorem cleanStep_mem (rooted : Bool) (out : List (List Char)) (c e : List Char)
    (h : e ∈ cleanStep rooted out c) :
    e ∈ out ∨ (e = c ∧ c ≠ [] ∧ c ≠ ['.'] ∧ (rooted = true → c ≠ ['.', '.'])) := by
  unfold cleanStep at h
  by_cases h1 : c = [] ∨ c = ['.']
  · simp only [h1, if_true] at h; exact Or.inl h
  · have h1a : c ≠ [] := fun e => h1 (Or.inl e)
    have h1b : c ≠ ['.'] := fun e => h1 (Or.inr e)
    simp only [h1, if_false] at h
    by_cases h2 : c = ['.', '.']
    · simp only [h2, if_true] at h
      cases out with
      | nil =>
        cases rooted with
        | true => simp at h
        | false =>
          simp at h
          exact Or.inr ⟨by rw [h, h2], h1a, h1b, by simp⟩
      | cons top rest =>
        simp only at h
        by_cases h3 : top = ['.', '.']
        · cases rooted with
          | true => simp [h3] at h; left; simp [h3, h]
          | false =>
            simp [h3] at h
            rcases h with h | h
            · exact Or.inr ⟨by rw [h, h2], h1a, h1b, by simp⟩
            · left; simp [h3, h]
        · simp [h3] at h
          exact Or.inl (List.mem_cons_of_mem _ h)
    · simp only [h2, if_false, List.mem_cons] at h
      rcases h with h | h
      · exact Or.inr ⟨h, h1a, h1b, fun _ => h2⟩
      · exact Or.inl h

theorem foldl_cleanStep_mem (rooted : Bool) (elems : List (List Char)) :
    ∀ (out : List (List Char)) (e : List Char),
      e ∈ elems.foldl (cleanStep rooted) out →
      e ∈ out ∨ (e ∈ elems ∧ e ≠ [] ∧ e ≠ ['.'] ∧ (rooted = true → e ≠ ['.', '.'])) := by
  induction elems with
  | nil => intro out e h; exact Or.inl h
  | cons c cs ih =>
    intro out e h
    simp only [List.foldl_cons] at h
    rcases ih _ e h with h | ⟨h, h'⟩
    · rcases cleanStep_mem rooted out c e h with h | ⟨rfl, h'⟩
      · exact Or.inl h
      · exact Or.inr ⟨by simp, h'⟩
    · exact Or.inr ⟨List.mem_cons_of_mem _ h, h'⟩

theorem foldl_cleanStep_real (rooted : Bool) (S : List (List Char)) :
    ∀ (out : List (List Char)), (∀ e ∈ S, realElem e) →
      S.foldl (cleanStep rooted) out = S.reverse ++ out := by
  induction S with
  | nil => intro out _; rfl
  | cons c cs ih =>
    intro out h
    simp only [List.foldl_cons, cleanStep_real rooted out c (h c (by simp))]
    rw [ih _ (fun e he => h e (List.mem_cons_of_mem _ he))]
    simp

theorem foldl_cleanStep_relative (T : List (List Char)) (B : List (List Char)) :
    (B.foldl (cleanStep false) []).reverse.foldl (cleanStep true) T
      = B.foldl (cleanStep true) T := by
  induction B using List.reverseRecOn with
  | nil => rfl
  | append_singleton B c ih =>
    simp only [List.foldl_append, List.foldl_cons, List.foldl_nil]
    rw [← ih]
    generalize hS : B.foldl (cleanStep false) [] = S
    have hmem := foldl_cleanStep_mem false B [] 
    rw [hS] at hmem
    by_cases h1 : c = [] ∨ c = ['.']
    · simp [cleanStep, h1]
    · by_cases h2 : c = ['.', '.']
      · subst h2
        cases S with
        | nil => simp [cleanStep]
        | cons top rest =>
          by_cases h3 : top = ['.', '.']
          · subst h3
            simp [cleanStep]
          · have htop : realElem top := by
              rcases hmem top (by simp) with h | ⟨_, ha, hb, _⟩
              · simp at h
              · exact ⟨ha, hb, h3⟩
            have hL : cleanStep false (top :: rest) ['.', '.'] = rest := by
              simp [cleanStep, h3]
            rw [hL]
            simp only [List.reverse_cons, List.foldl_append, List.foldl_cons, List.foldl_nil]
            rw [cleanStep_real true _ top htop]
            simp [cleanStep, h3]
      · have hc : realElem c := ⟨fun e => h1 (Or.inl e), fun e => h1 (Or.inr e), h2⟩
        rw [cleanStep_real false S c hc]
        simp only [List.reverse_cons, List.foldl_append, List.foldl_cons, List.foldl_nil]

/-! ## Lemmas on `strings` and `filepath` -/

theorem isAbs_iff (p : String) : IsAbs p = true ↔ ∃ t, p.data = '/' :: t := by
  simp only [IsAbs, HasPrefix, decide_eq_true_eq]
  constructor
  · rintro ⟨t, ht⟩
    exact ⟨t, ht.symm⟩
  · rintro ⟨t, ht⟩
    exact ⟨t, ht.symm⟩

theorem not_isAbs_iff (p : String) :
    IsAbs p = false ↔ p.data = [] ∨ ∃ c t, p.data = c :: t ∧ c ≠ '/' := by
  rw [← Bool.not_eq_true, isAbs_iff]
  cases h : p.data with
  | nil => simp
  | cons c t =>
    by_cases hc : c = '/'
    · simp [hc]
    · simp [hc]

theorem no_slash_of_contains (f : String) (h : Contains f "/" = false) : '/' ∉ f.data := by
  intro hmem
  simp only [Contains, decide_eq_false_iff_not] at h
  apply h
  obtain ⟨a, b, hab⟩ := List.append_of_mem hmem
  exact ⟨a, b, by rw [hab]; simp⟩

theorem not_dotdot_of_contains (f : String) (h : Contains f ".." = false) :
    f.data ≠ ['.', '.'] := by
  intro he
  simp only [Contains, decide_eq_false_iff_not] at h
  apply h
  rw [he]

theorem data_ne_nil_of_ne_empty (e : String) (h : e ≠ "") : e.data ≠ [] := by
  intro hd
  apply h
  exact String.ext hd

theorem cleanChars_rooted (t : List Char) :
    cleanChars ('/' :: t)
      = '/' :: joinSlash ((splitSlash ('/' :: t)).foldl (cleanStep true) []).reverse := by
  simp [cleanChars]

theorem cleanChars_relative (c : Char) (t : List Char) (hc : c ≠ '/') :
    cleanChars (c :: t)
      = if (splitSlash (c :: t)).foldl (cleanStep false) [] = [] then ['.']
        else joinSlash ((splitSlash (c :: t)).foldl (cleanStep false) []).reverse := by
  simp [cleanChars, hc]

theorem join_two_data (d f : String) (hd : d.data ≠ []) :
    (Join [d, f]).data = cleanChars (d.data ++ '/' :: f.data) := by
  have hne : d ≠ "" := fun e => hd (by rw [e])
  simp [Join, hne, Clean, joinSlash]

theorem goodStack_foldl (T E : List (List Char)) (hT : goodStack T)
    (hE : ∀ e ∈ E, '/' ∉ e) : goodStack (E.foldl (cleanStep true) T) := by
  intro e he
  rcases foldl_cleanStep_mem true E T e he with h | ⟨h, h1, h2, h3⟩
  · exact hT e h
  · exact ⟨⟨h1, h2, h3 rfl⟩, hE e h⟩

theorem goodStack_nil : goodStack [] := by
  intro e he; simp at he

theorem components_rooted (S : List (List Char)) (h : ∀ e ∈ S, e ≠ [] ∧ '/' ∉ e) :
    (splitSlash ('/' :: joinSlash S)).filter (fun e => e ≠ []) = S := by
  cases S with
  | nil => simp [splitSlash, joinSlash]
  | cons a rest =>
    have h1 : splitSlash ('/' :: joinSlash (a :: rest)) = [] :: (a :: rest) := by
      simp only [splitSlash, if_true]
      rw [splitSlash_joinSlash _ (by simp) (fun e he => (h e he).2)]
    rw [h1]
    simp only [ne_eq, not_true_eq_false, decide_False, Bool.false_eq_true, not_false_eq_true,
      List.filter_cons_of_neg]
    apply List.filter_eq_self.mpr
    intro e he
    simpa using (h e he).1

theorem foldl_rooted_form (R : List (List Char)) (hR : goodStack R) :
    (splitSlash ('/' :: joinSlash R.reverse)).foldl (cleanStep true) [] = R := by
  have hreal : ∀ e ∈ R.reverse, realElem e := fun e he => (hR e (List.mem_reverse.mp he)).1
  cases h : R.reverse with
  | nil =>
    have : R = [] := by simpa using h
    subst this
    simp [splitSlash, joinSlash, cleanStep]
  | cons a rest =>
    have h1 : splitSlash ('/' :: joinSlash (a :: rest)) = [] :: (a :: rest) := by
      simp only [splitSlash, if_true]
      rw [splitSlash_joinSlash _ (by simp)
        (fun e he => (hR e (List.mem_reverse.mp (h ▸ he))).2)]
    rw [h1]
    have h2 : cleanStep true [] [] = [] := by simp [cleanStep]
    rw [List.foldl_cons, h2, foldl_cleanStep_real true _ [] (h ▸ hreal), ← h]
    simp

theorem abs_rooted (getwd : Except String String)
    (hwd : ∀ wd, getwd = .ok wd → IsAbs wd = true) (p a : String)
    (h : Abs getwd p = .ok a) :
    ∃ E, a.data = '/' :: joinSlash (E.foldl (cleanStep true) []).reverse ∧
      ((IsAbs p = true ∧ E = splitSlash p.data) ∨
       (IsAbs p = false ∧ ∃ wd, getwd = .ok wd ∧ E = splitSlash wd.data ++ splitSlash p.data)) := by
  unfold Abs at h
  by_cases hp : IsAbs p = true
  · simp only [hp, if_true, Except.ok.injEq] at h
    obtain ⟨t, ht⟩ := (isAbs_iff p).mp hp
    refine ⟨splitSlash p.data, ?_, Or.inl ⟨hp, rfl⟩⟩
    rw [← h]
    show cleanChars p.data = _
    rw [ht, cleanChars_rooted]
  · have hp2 : IsAbs p = false := by simpa using hp
    simp only [hp2, Bool.false_eq_true, if_false] at h
    cases hg : getwd with
    | error e => rw [hg] at h; simp at h
    | ok wd =>
      rw [hg] at h
      simp only [Except.ok.injEq] at h
      obtain ⟨wt, hwt⟩ := (isAbs_iff wd).mp (hwd wd hg)
      refine ⟨splitSlash wd.data ++ splitSlash p.data, ?_, Or.inr ⟨hp2, wd, rfl, rfl⟩⟩
      rw [← h, join_two_data wd p (by rw [hwt]; simp), ← splitSlash_append_slash]
      rw [hwt, List.cons_append, cleanChars_rooted]

theorem cleanStep_single (R : List (List Char)) (f : List Char) (hf : f ≠ ['.', '.']) :
    cleanStep true R f = R ∨ (cleanStep true R f = f :: R ∧ realElem f) := by
  by_cases h1 : f = [] ∨ f = ['.']
  · left; simp [cleanStep, h1]
  · right
    have hr : realElem f := ⟨fun e => h1 (Or.inl e), fun e => h1 (Or.inr e), hf⟩
    exact ⟨cleanStep_real true R f hr, hr⟩

theorem joinSlash_cons_head (c : Char) (t : List Char) (rest : List (List Char)) :
    ∃ u, joinSlash ((c :: t) :: rest) = c :: u := by
  cases rest with
  | nil => exact ⟨t, rfl⟩
  | cons n r => exact ⟨t ++ '/' :: joinSlash (n :: r), rfl⟩

theorem relative_clean_not_abs (B : List (List Char)) (hB : ∀ e ∈ B, '/' ∉ e) (j : String)
    (hj : j.data = if B.foldl (cleanStep false) [] = [] then ['.']
      else joinSlash (B.foldl (cleanStep false) []).reverse) :
    IsAbs j = false := by
  rw [not_isAbs_iff]
  right
  by_cases h : B.foldl (cleanStep false) [] = []
  · rw [if_pos h] at hj
    exact ⟨'.', [], hj, by decide⟩
  · rw [if_neg h] at hj
    have hmem := foldl_cleanStep_mem false B []
    generalize B.foldl (cleanStep false) [] = S at h hj hmem
    have hrev : S.reverse ≠ [] := by simpa using h
    cases hS : S.reverse with
    | nil => exact absurd hS hrev
    | cons a rest =>
      have ha : a ∈ S := List.mem_reverse.mp (by rw [hS]; simp)
      rcases hmem a ha with h0 | ⟨h1, h2, _, _⟩
      · simp at h0
      · have hns : '/' ∉ a := hB a h1
        cases a with
        | nil => exact absurd rfl h2
        | cons c t =>
          obtain ⟨u, hu⟩ := joinSlash_cons_head c t rest
          refine ⟨c, u, ?_, ?_⟩
          · rw [hj, hS, hu]
          · intro hc
            exact hns (by simp [hc])

theorem relative_fold (W B : List (List Char)) (hB : ∀ e ∈ B, '/' ∉ e) (j : List Char)
    (hj : j = if B.foldl (cleanStep false) [] = [] then ['.']
      else joinSlash (B.foldl (cleanStep false) []).reverse) :
    (splitSlash j).foldl (cleanStep true) W = B.foldl (cleanStep true) W := by
  rw [← foldl_cleanStep_relative W B]
  by_cases h : B.foldl (cleanStep false) [] = []
  · rw [if_pos h] at hj
    rw [hj, h]
    simp [splitSlash, cleanStep]
  · rw [if_neg h] at hj
    have hmem := foldl_cleanStep_mem false B []
    rw [hj, splitSlash_joinSlash _ (by simpa using h)]
    intro e he
    rcases hmem e (List.mem_reverse.mp he) with h0 | ⟨h1, _⟩
    · simp at h0
    · exact hB e h1

theorem join_relative_form (d f : String) (hd : IsAbs d = false) (hf1 : '/' ∉ f.data) :
    (Join [d, f]).data = [] ∧ d.data = [] ∧ f.data = [] ∨
    (Join [d, f]).data
      = if (splitSlash d.data ++ [f.data]).foldl (cleanStep false) [] = [] then ['.']
        else joinSlash ((splitSlash d.data ++ [f.data]).foldl (cleanStep false) []).reverse := by
  rcases (not_isAbs_iff d).mp hd with hnil | ⟨c, t, hct, hc⟩
  · have hde : d = "" := String.ext hnil
    by_cases hfe : f = ""
    · left
      subst hde; subst hfe
      simp [Join]
    · right
      have hfd := data_ne_nil_of_ne_empty f hfe
      cases hfc : f.data with
      | nil => exact absurd hfc hfd
      | cons c t =>
        have hc : c ≠ '/' := fun e => hf1 (by rw [hfc, e]; simp)
        have hJ : (Join [d, f]).data = cleanChars f.data := by
          subst hde
          simp [Join, hfe, Clean, joinSlash]
        have hsp : splitSlash (c :: t) = [c :: t] :=
          splitSlash_of_no_slash _ (hfc ▸ hf1)
        rw [hJ, hnil, hfc, cleanChars_relative c t hc, hsp]
        simp [splitSlash, cleanStep]
  · right
    rw [join_two_data d f (by rw [hct]; simp)]
    have hsp : splitSlash (d.data ++ '/' :: f.data) = splitSlash d.data ++ [f.data] := by
      rw [splitSlash_append_slash, splitSlash_of_no_slash _ hf1]
    rw [← hsp, hct, List.cons_append, cleanChars_relative c _ hc]

theorem join_abs_stack (getwd : Except String String)
    (hwd : ∀ wd, getwd = .ok wd → IsAbs wd = true) (d f absRoot absFile : String)
    (hf1 : '/' ∉ f.data)
    (h1 : Abs getwd d = .ok absRoot) (h2 : Abs getwd (Join [d, f]) = .ok absFile) :
    ∃ R, goodStack R ∧ absRoot.data = '/' :: joinSlash R.reverse ∧
      absFile.data = '/' :: joinSlash (cleanStep true R f.data).reverse := by
  obtain ⟨E, hE, hcase⟩ := abs_rooted getwd hwd d absRoot h1
  obtain ⟨E', hE', hcase'⟩ := abs_rooted getwd hwd (Join [d, f]) absFile h2
  have hgood : goodStack (E.foldl (cleanStep true) []) := by
    apply goodStack_foldl _ _ goodStack_nil
    rcases hcase with ⟨_, rfl⟩ | ⟨_, wd, _, rfl⟩
    · exact no_slash_of_mem_splitSlash _
    · intro e he
      rcases List.mem_append.mp he with he | he
      · exact no_slash_of_mem_splitSlash _ e he
      · exact no_slash_of_mem_splitSlash _ e he
  refine ⟨E.foldl (cleanStep true) [], hgood, hE, ?_⟩
  rw [hE']
  congr 2
  congr 1
  rcases hcase with ⟨hd, rfl⟩ | ⟨hd, wd, hg, rfl⟩
  · -- the secure directory is an absolute path
    obtain ⟨t, ht⟩ := (isAbs_iff d).mp hd
    have hJ : (Join [d, f]).data = '/' :: joinSlash
        (cleanStep true ((splitSlash d.data).foldl (cleanStep true) []) f.data).reverse := by
      rw [join_two_data d f (by rw [ht]; simp)]
      have hsp : splitSlash (d.data ++ '/' :: f.data) = splitSlash d.data ++ [f.data] := by
        rw [splitSlash_append_slash, splitSlash_of_no_slash _ hf1]
      have hc := cleanChars_rooted (t ++ '/' :: f.data)
      rw [← List.cons_append, ← ht, hsp] at hc
      rw [hc, List.foldl_append]
      rfl
    have hJabs : IsAbs (Join [d, f]) = true := (isAbs_iff _).mpr ⟨_, hJ⟩
    rcases hcase' with ⟨_, rfl⟩ | ⟨hno, _⟩
    · rw [hJ]
      apply foldl_rooted_form
      have := goodStack_foldl ((splitSlash d.data).foldl (cleanStep true) []) [f.data] hgood
        (by intro e he; simp at he; rw [he]; exact hf1)
      simpa using this
    · rw [hJabs] at hno; exact absurd hno (by simp)
  · -- the secure directory is relative to the working directory
    have hB : ∀ e ∈ splitSlash d.data ++ [f.data], '/' ∉ e := by
      intro e he
      rcases List.mem_append.mp he with he | he
      · exact no_slash_of_mem_splitSlash _ e he
      · simp at he; rw [he]; exact hf1
    have hfold : ∀ W, (splitSlash (Join [d, f]).data).foldl (cleanStep true) W
        = cleanStep true ((splitSlash d.data).foldl (cleanStep true) W) f.data := by
      intro W
      rcases join_relative_form d f hd hf1 with ⟨hj, hdn, hfn⟩ | hj
      · rw [hj, hdn, hfn]; simp [splitSlash, cleanStep]
      · rw [relative_fold W _ hB _ hj, List.foldl_append]
        rfl
    have hJrel : IsAbs (Join [d, f]) = false := by
      rcases join_relative_form d f hd hf1 with ⟨hj, _, _⟩ | hj
      · exact (not_isAbs_iff _).mpr (Or.inl hj)
      · exact relative_clean_not_abs _ hB _ hj
    rcases hcase' with ⟨hyes, _⟩ | ⟨_, wd', hg', rfl⟩
    · rw [hJrel] at hyes; exact absurd hyes (by simp)
    · have hw : wd' = wd := by
        rw [hg] at hg'; simpa using hg'.symm
      subst hw
      rw [List.foldl_append, List.foldl_append, hfold]

theorem withinRoot_of_stack (R : List (List Char)) (hR : goodStack R) (f : List Char)
    (hf1 : '/' ∉ f) (hf2 : f ≠ ['.', '.']) (absRoot absFile : String)
    (h1 : absRoot.data = '/' :: joinSlash R.reverse)
    (h2 : absFile.data = '/' :: joinSlash (cleanStep true R f).reverse) :
    withinRoot absRoot absFile := by
  have hgood : ∀ S : List (List Char), goodStack S → ∀ e ∈ S.reverse, e ≠ [] ∧ '/' ∉ e :=
    fun S hS e he => ⟨(hS e (List.mem_reverse.mp he)).1.1, (hS e (List.mem_reverse.mp he)).2⟩
  unfold withinRoot pathComponents
  rw [h1, h2, components_rooted _ (hgood R hR)]
  rcases cleanStep_single R f hf2 with h | ⟨h, hr⟩
  · rw [h, components_rooted _ (hgood R hR)]
  · have hS : goodStack (f :: R) := by
      intro e he
      rcases List.mem_cons.mp he with rfl | he
      · exact ⟨hr, hf1⟩
      · exact hR e he
    rw [h, components_rooted _ (hgood _ hS), List.reverse_cons]
    exact List.prefix_append _ _

theorem joinSlash_prefix_snoc (S : List (List Char)) (f : List Char) :
    joinSlash S <+: joinSlash (S ++ [f]) := by
  induction S with
  | nil => exact List.nil_prefix
  | cons a rest ih =>
    cases rest with
    | nil => exact List.prefix_append a ('/' :: f)
    | cons b r =>
      have ih2 : joinSlash (b :: r) <+: joinSlash (b :: (r ++ [f])) := ih
      show a ++ '/' :: joinSlash (b :: r) <+: a ++ '/' :: joinSlash (b :: (r ++ [f]))
      exact (List.prefix_append_right_inj a).mpr ((List.prefix_cons_inj '/').mpr ih2)

/-- After the syntactic pre-check the comparison of line 167 never denies: the joined
path is the root or the root followed by one element, so the `Access denied` answer of
`DownloadFileHandler` is not reachable on Unix. -/
theorem prefix_check_passes_after_precheck (getwd : Except String String)
    (hwd : ∀ wd, getwd = .ok wd → IsAbs wd = true) (d f absRoot absFile : String)
    (hslash : Contains f "/" = false) (hdots : Contains f ".." = false)
    (h1 : Abs getwd d = .ok absRoot) (h2 : Abs getwd (Join [d, f]) = .ok absFile) :
    prefixCheckDenies absFile absRoot = false := by
  have hf1 := no_slash_of_contains _ hslash
  have hf2 := not_dotdot_of_contains _ hdots
  obtain ⟨R, _, hroot, hfile⟩ := join_abs_stack getwd hwd d f absRoot absFile hf1 h1 h2
  have hpre : absRoot.data <+: absFile.data := by
    rw [hroot, hfile]
    rcases cleanStep_single R f.data hf2 with h | ⟨h, _⟩
    · rw [h]
    · rw [h, List.reverse_cons]
      exact (List.prefix_cons_inj '/').mpr (joinSlash_prefix_snoc _ _)
  simp [prefixCheckDenies, HasPrefix, hpre]

theorem clean_abs_form (p : String) (ha : IsAbs p = true) (hc : Clean p = p) :
    ∃ S : List (List Char), (∀ e ∈ S, e ≠ [] ∧ '/' ∉ e) ∧ p.data = '/' :: joinSlash S := by
  obtain ⟨t, ht⟩ := (isAbs_iff p).mp ha
  have hd : p.data = cleanChars p.data := by
    conv_lhs => rw [← hc]
    rfl
  have hgood : goodStack ((splitSlash p.data).foldl (cleanStep true) []) :=
    goodStack_foldl _ _ goodStack_nil (no_slash_of_mem_splitSlash _)
  refine ⟨((splitSlash p.data).foldl (cleanStep true) []).reverse, ?_, ?_⟩
  · intro e he
    have := hgood e (List.mem_reverse.mp he)
    exact ⟨this.1.1, this.2⟩
  · have hc2 : cleanChars p.data
        = '/' :: joinSlash ((splitSlash p.data).foldl (cleanStep true) []).reverse := by
      rw [ht]
      exact cleanChars_rooted t
    exact hd.trans hc2

theorem prefix_of_elem (a : List Char) (ha : '/' ∉ a) :
    ∀ (c t : List Char), (t = [] ∨ ∃ u, t = '/' :: u) → a <+: c ++ t → a <+: c := by
  induction a with
  | nil => intro c t _ _; exact List.nil_prefix
  | cons h a ih =>
    intro c t ht hp
    have hh : h ≠ '/' := fun e => ha (by simp [e])
    have ha2 : '/' ∉ a := fun e => ha (List.mem_cons_of_mem _ e)
    cases c with
    | nil =>
      rcases ht with rfl | ⟨u, rfl⟩
      · simp at hp
      · rw [List.nil_append, List.cons_prefix_cons] at hp
        exact absurd hp.1 hh
    | cons h2 c =>
      rw [List.cons_append, List.cons_prefix_cons] at hp
      rw [List.cons_prefix_cons]
      exact ⟨hp.1, ih ha2 c t ht hp.2⟩

theorem slash_split_prefix (a : List Char) (ha : '/' ∉ a) :
    ∀ (c X Y : List Char), '/' ∉ c → a ++ '/' :: X <+: c ++ '/' :: Y → a = c ∧ X <+: Y := by
  induction a with
  | nil =>
    intro c X Y hc hp
    cases c with
    | nil =>
      rw [List.nil_append, List.nil_append, List.cons_prefix_cons] at hp
      exact ⟨rfl, hp.2⟩
    | cons h2 c =>
      rw [List.nil_append, List.cons_append, List.cons_prefix_cons] at hp
      exact absurd (by rw [← hp.1]; simp) hc
  | cons h a ih =>
    intro c X Y hc hp
    have hh : h ≠ '/' := fun e => ha (by simp [e])
    have ha2 : '/' ∉ a := fun e => ha (List.mem_cons_of_mem _ e)
    cases c with
    | nil =>
      rw [List.nil_append, List.cons_append, List.cons_prefix_cons] at hp
      exact absurd hp.1 hh
    | cons h2 c =>
      rw [List.cons_append, List.cons_append, List.cons_prefix_cons] at hp
      have hc2 : '/' ∉ c := fun e => hc (List.mem_cons_of_mem _ e)
      obtain ⟨e1, e2⟩ := ih ha2 c X Y hc2 hp.2
      exact ⟨by rw [hp.1, e1], e2⟩

theorem joinSlash_cons_form (c : List Char) (rest : List (List Char)) :
    ∃ t, joinSlash (c :: rest) = c ++ t ∧ (t = [] ∨ ∃ u, t = '/' :: u) := by
  cases rest with
  | nil => exact ⟨[], by simp [joinSlash], Or.inl rfl⟩
  | cons n r => exact ⟨'/' :: joinSlash (n :: r), rfl, Or.inr ⟨_, rfl⟩⟩

theorem joinSlash_prefix_cases (R : List (List Char)) :
    ∀ (C : List (List Char)), (∀ e ∈ R, e ≠ [] ∧ '/' ∉ e) → (∀ e ∈ C, e ≠ [] ∧ '/' ∉ e) →
      joinSlash R <+: joinSlash C →
      R <+: C ∨ ∃ parent last ext rest, ext ≠ [] ∧ R = parent ++ [last] ∧
        C = parent ++ (last ++ ext) :: rest := by
  induction R with
  | nil => intro C _ _ _; exact Or.inl List.nil_prefix
  | cons a R ih =>
    intro C hR hC hp
    have haR := hR a (by simp)
    cases R with
    | nil =>
      cases C with
      | nil =>
        have : a = [] := by simpa [joinSlash] using hp
        exact absurd this haR.1
      | cons c C =>
        obtain ⟨t, hform, ht⟩ := joinSlash_cons_form c C
        have hp2 : a <+: c ++ t := by rw [← hform]; simpa [joinSlash] using hp
        obtain ⟨ext, hext⟩ := prefix_of_elem a haR.2 c t ht hp2
        by_cases he : ext = []
        · left
          rw [he, List.append_nil] at hext
          rw [← hext, List.cons_prefix_cons]
          exact ⟨rfl, List.nil_prefix⟩
        · right
          exact ⟨[], a, ext, C, he, rfl, by rw [hext]; rfl⟩
    | cons b R =>
      have hp1 : a ++ '/' :: joinSlash (b :: R) <+: joinSlash C := hp
      cases C with
      | nil =>
        simp [joinSlash] at hp1
      | cons c C =>
        have hcC := hC c (by simp)
        cases C with
        | nil =>
          have hp2 : a ++ '/' :: joinSlash (b :: R) <+: c := hp1
          exact absurd (hp2.subset (by simp)) hcC.2
        | cons d C =>
          have hp2 : a ++ '/' :: joinSlash (b :: R) <+: c ++ '/' :: joinSlash (d :: C) := hp1
          obtain ⟨e1, e2⟩ := slash_split_prefix a haR.2 c _ _ hcC.2 hp2
          subst e1
          rcases ih (d :: C) (fun e he => hR e (List.mem_cons_of_mem _ he))
              (fun e he => hC e (List.mem_cons_of_mem _ he)) e2 with h | h
          · left
            rw [List.cons_prefix_cons]
            exact ⟨rfl, h⟩
          · right
            obtain ⟨parent, last, ext, rest, he, h1, h2⟩ := h
            exact ⟨a :: parent, last, ext, rest, he, by rw [h1]; rfl, by rw [h2]; rfl⟩

theorem not_contains_of_not_mem (f : String) (c : Char) (h : c ∉ f.data) :
    Contains f ⟨[c]⟩ = false := by
  simp only [Contains, decide_eq_false_iff_not]
  intro hin
  exact h (hin.subset (by simp))

/-- The model of `filepath.Clean` on inputs and expected outputs taken from the table of
the Go standard library's own test of `Clean`. -/
theorem clean_agrees_with_go_table :
    [Clean "", Clean "abc", Clean "..", Clean "../../abc", Clean "/", Clean "abc/def/",
      Clean "abc//def//ghi", Clean "//abc//", Clean "/./abc/def", Clean "abc/def/../..",
      Clean "/abc/def/../../..", Clean "abc/def/../../../ghi/jkl/../../../mno",
      Clean "/../abc", Clean "abc/../../././../def"]
    = [".", "abc", "..", "../../abc", "/", "abc/def", "abc/def/ghi", "/abc", "/abc/def", ".",
      "/", "../../mno", "/abc", "../../def"] := by
  decide

/-! ## Lemmas on the command handler -/

theorem findCommand_eq_find (commands : List CommandDefinition) (name : String) :
    findCommand commands name = commands.find? (fun c => c.Name == name) := by
  induction commands with
  | nil => rfl
  | cons cmd rest ih =>
    by_cases h : cmd.Name = name
    · simp [findCommand, List.find?, h]
    · have hb : (cmd.Name == name) = false := by simpa using h
      simp [findCommand, List.find?, h, hb, ih]

theorem findCommand_name (commands : List CommandDefinition) (name : String)
    (cmd : CommandDefinition) (h : findCommand commands name = some cmd) :
    cmd.Name = name := by
  rw [findCommand_eq_find] at h
  simpa using List.find?_some h

theorem findCommand_none (commands : List CommandDefinition) (name : String)
    (h : ∀ c ∈ commands, c.Name ≠ name) : findCommand commands name = none := by
  rw [findCommand_eq_find, List.find?_eq_none]
  intro c hc
  simpa using h c hc

theorem waitError_eq_none_iff (fate : ProcessFate) :
    fate.waitError = none ↔ fate = .exited 0 := by
  cases fate with
  | exited code => cases code <;> simp [ProcessFate.waitError]
  | signaled s => simp [ProcessFate.waitError]
  | startFailed m => simp [ProcessFate.waitError]
  | deadlineExceeded => simp [ProcessFate.waitError]

theorem executeCommand_eq (w : World) (cmd : CommandDefinition) :
    ExecuteCommand w cmd =
      (((w.run 30 cmd.Command cmd.Args).output,
        (w.run 30 cmd.Command cmd.Args).fate.waitError.map
          (fun err => "command '" ++ cmd.Name ++ "' failed: " ++ err)),
        [Effect.spawn 30 cmd.Command cmd.Args]) := by
  cases h : (w.run 30 cmd.Command cmd.Args).fate.waitError <;> simp [ExecuteCommand, h]

theorem executeCommand_err_none_iff (w : World) (cmd : CommandDefinition) :
    (ExecuteCommand w cmd).1.2 = none ↔ (w.run 30 cmd.Command cmd.Args).fate = .exited 0 := by
  rw [← waitError_eq_none_iff, executeCommand_eq]
  simp

theorem wrapped_error_ne_empty (name err : String) :
    "command '" ++ name ++ "' failed: " ++ err ≠ "" := by
  intro he
  have hd := congrArg String.data he
  simp [String.data_append] at hd

theorem handler_matched (env : APIEnv) (w : World) (r : Request)
    (req : ExecuteCommandRequest) (cmd : CommandDefinition)
    (hdec : w.decodeJSON r.Body = some req)
    (hfind : findCommand env.Config.Executor.Commands req.Name = some cmd) :
    ExecuteCommandHandler env w r =
      ⟨⟨if (ExecuteCommand w cmd).1.2.isSome then 500 else 200,
          .executeJSON ⟨(w.run 30 cmd.Command cmd.Args).output,
            (ExecuteCommand w cmd).1.2.getD ""⟩⟩,
        { env with
          Logger := match w.sqlError with
            | some dbErr =>
              env.Logger.Error w.logNow ("Failed to record action to database: " ++ dbErr)
            | none => env.Logger
          DB := (env.DB.RecordAction w.sqlPrepareErr w.sqlExecErr w.dbNow req.Name
            (if (ExecuteCommand w cmd).1.2.isSome then "failure" else "success")
            (w.run 30 cmd.Command cmd.Args).output).1 },
        [Effect.spawn 30 cmd.Command cmd.Args,
          Effect.recordAction req.Name
            (if (ExecuteCommand w cmd).1.2.isSome then "failure" else "success")
            (w.run 30 cmd.Command cmd.Args).output]⟩ := by
  have hout : (ExecuteCommand w cmd).1.1 = (w.run 30 cmd.Command cmd.Args).output := by
    rw [executeCommand_eq]
  have heff : (ExecuteCommand w cmd).2 = [Effect.spawn 30 cmd.Command cmd.Args] := by
    rw [executeCommand_eq]
  have hsql : ∀ now c st o, (env.DB.RecordAction w.sqlPrepareErr w.sqlExecErr now c st o).2.2
      = w.sqlError := by
    intro now c st o
    unfold DB.RecordAction World.sqlError
    cases w.sqlPrepareErr <;> cases w.sqlExecErr <;> rfl
  unfold ExecuteCommandHandler
  simp only [hdec, hfind, hout, heff, hsql]
  cases (ExecuteCommand w cmd).1.2 <;> rfl

theorem isSome_iff_not_clean (w : World) (cmd : CommandDefinition) :
    (ExecuteCommand w cmd).1.2.isSome = true ↔
      (w.run 30 cmd.Command cmd.Args).fate ≠ .exited 0 := by
  rw [← not_iff_not, not_not, ← executeCommand_err_none_iff]
  cases (ExecuteCommand w cmd).1.2 <;> simp

/-! ## The claims -/

/-- C1. When `ExecuteCommandHandler` starts a process, the program and the argument vector
are the `Command` and `Args` of the first allow-list entry whose `Name` equals the requested
name; that is the only process it starts, and every request in every world that decodes to
the same name starts exactly the same process. -/
theorem execute_spawns_first_matching_entry (env : APIEnv) (w : World) (r : Request)
    (t : Nat) (program : String) (args : List String)
    (h : Effect.spawn t program args ∈ (ExecuteCommandHandler env w r).effects) :
    ∃ req cmd, w.decodeJSON r.Body = some req ∧
      env.Config.Executor.Commands.find? (fun c => c.Name == req.Name) = some cmd ∧
      program = cmd.Command ∧ args = cmd.Args ∧
      (ExecuteCommandHandler env w r).effects.filter Effect.isSpawn
        = [Effect.spawn 30 cmd.Command cmd.Args] ∧
      ∀ (w2 : World) (r2 : Request) (req2 : ExecuteCommandRequest),
        w2.decodeJSON r2.Body = some req2 → req2.Name = req.Name →
        (ExecuteCommandHandler env w2 r2).effects.filter Effect.isSpawn
          = [Effect.spawn 30 cmd.Command cmd.Args] := by
  cases hdec : w.decodeJSON r.Body with
  | none => simp [ExecuteCommandHandler, hdec] at h
  | some req =>
    cases hfind : findCommand env.Config.Executor.Commands req.Name with
    | none => simp [ExecuteCommandHandler, hdec, hfind] at h
    | some cmd =>
      rw [handler_matched env w r req cmd hdec hfind] at h
      simp only [List.mem_cons, Effect.spawn.injEq, List.mem_singleton, reduceCtorEq,
        or_false, List.not_mem_nil] at h
      refine ⟨req, cmd, rfl, ?_, h.2.1, h.2.2, ?_, ?_⟩
      · rw [← findCommand_eq_find]; exact hfind
      · rw [handler_matched env w r req cmd hdec hfind]
        simp [List.filter, Effect.isSpawn, Effect.isRecordAction]
      · intro w2 r2 req2 hdec2 hname
        rw [handler_matched env w2 r2 req2 cmd hdec2 (by rw [hname]; exact hfind)]
        simp [List.filter, Effect.isSpawn, Effect.isRecordAction]

/-- C1, at a request for `disk`: the process started is `df -h`. -/
theorem execute_spawns_first_matching_entry_witness :
    ∃ req cmd, (exampleWorld ⟨"ok", .exited 0⟩ none).decodeJSON (executeRequest "disk").Body
        = some req ∧
      exampleEnv.Config.Executor.Commands.find? (fun c => c.Name == req.Name) = some cmd ∧
      "df" = cmd.Command ∧ ["-h"] = cmd.Args ∧
      (ExecuteCommandHandler exampleEnv (exampleWorld ⟨"ok", .exited 0⟩ none)
          (executeRequest "disk")).effects.filter Effect.isSpawn
        = [Effect.spawn 30 cmd.Command cmd.Args] ∧
      ∀ (w2 : World) (r2 : Request) (req2 : ExecuteCommandRequest),
        w2.decodeJSON r2.Body = some req2 → req2.Name = req.Name →
        (ExecuteCommandHandler exampleEnv w2 r2).effects.filter Effect.isSpawn
          = [Effect.spawn 30 cmd.Command cmd.Args] :=
  execute_spawns_first_matching_entry exampleEnv (exampleWorld ⟨"ok", .exited 0⟩ none)
    (executeRequest "disk") 30 "df" ["-h"] (by decide)

/-- C2. A requested name that is the `Name` of no allow-list entry is answered with status
404 `Command not found`; no process is started, no audit append is made, and the
environment (audit store and logger) is left as it was. -/
theorem execute_unknown_name_is_not_found (env : APIEnv) (w : World) (r : Request)
    (req : ExecuteCommandRequest) (hdec : w.decodeJSON r.Body = some req)
    (hno : ∀ c ∈ env.Config.Executor.Commands, c.Name ≠ req.Name) :
    (ExecuteCommandHandler env w r).response = ⟨404, .text "Command not found"⟩ ∧
      (ExecuteCommandHandler env w r).effects = [] ∧
      (ExecuteCommandHandler env w r).env = env := by
  have hfind := findCommand_none env.Config.Executor.Commands req.Name hno
  simp [ExecuteCommandHandler, hdec, hfind, httpError]

/-- C2, at the request for `rm -rf /`. -/
theorem execute_unknown_name_is_not_found_witness :
    (ExecuteCommandHandler exampleEnv (exampleWorld ⟨"ok", .exited 0⟩ none)
        (executeRequest "rm -rf /")).response = ⟨404, .text "Command not found"⟩ ∧
      (ExecuteCommandHandler exampleEnv (exampleWorld ⟨"ok", .exited 0⟩ none)
        (executeRequest "rm -rf /")).effects = [] ∧
      (ExecuteCommandHandler exampleEnv (exampleWorld ⟨"ok", .exited 0⟩ none)
        (executeRequest "rm -rf /")).env = exampleEnv :=
  execute_unknown_name_is_not_found exampleEnv (exampleWorld ⟨"ok", .exited 0⟩ none)
    (executeRequest "rm -rf /") ⟨"rm -rf /"⟩ rfl (by decide)

/-- C6. For a requested name that matches an allow-list entry, whatever the end of the
process, the handler makes exactly one audit append: its command name is the name of the
matched entry, its output is the captured output unchanged, and its status is `success`
when the process exited cleanly and `failure` otherwise. When the SQL driver accepts the
statement, exactly that one row is added to the store. -/
theorem execute_audits_exactly_once (env : APIEnv) (w : World) (r : Request)
    (req : ExecuteCommandRequest) (cmd : CommandDefinition)
    (hdec : w.decodeJSON r.Body = some req)
    (hfind : env.Config.Executor.Commands.find? (fun c => c.Name == req.Name) = some cmd) :
    (ExecuteCommandHandler env w r).effects.filter Effect.isRecordAction
        = [Effect.recordAction cmd.Name
            (if (w.run 30 cmd.Command cmd.Args).fate = .exited 0 then "success"
              else "failure")
            (w.run 30 cmd.Command cmd.Args).output] ∧
      (w.sqlError = none →
        (ExecuteCommandHandler env w r).env.DB.rows
          = env.DB.rows ++ [⟨env.DB.seq + 1, w.dbNow, cmd.Name,
              if (w.run 30 cmd.Command cmd.Args).fate = .exited 0 then "success"
                else "failure",
              (w.run 30 cmd.Command cmd.Args).output⟩]) := by
  rw [← findCommand_eq_find] at hfind
  have hname := findCommand_name _ _ _ hfind
  have hstatus : (if (ExecuteCommand w cmd).1.2.isSome then "failure" else "success")
      = (if (w.run 30 cmd.Command cmd.Args).fate = .exited 0 then "success"
          else "failure") := by
    by_cases hc : (w.run 30 cmd.Command cmd.Args).fate = .exited 0
    · have := (executeCommand_err_none_iff w cmd).mpr hc
      simp [hc, this]
    · have := (isSome_iff_not_clean w cmd).mpr hc
      simp [hc, this]
  rw [handler_matched env w r req cmd hdec hfind, hstatus, ← hname]
  refine ⟨by simp [List.filter, Effect.isSpawn, Effect.isRecordAction], ?_⟩
  intro hsql
  unfold World.sqlError at hsql
  cases hp : w.sqlPrepareErr with
  | some e => rw [hp] at hsql; simp at hsql
  | none =>
    rw [hp] at hsql
    simp only at hsql
    simp [DB.RecordAction, hsql]

/-- C6, at a request for `uptime` whose process is killed by the deadline. -/
theorem execute_audits_exactly_once_witness :
    (ExecuteCommandHandler exampleEnv (exampleWorld ⟨"up 3 days", .deadlineExceeded⟩ none)
        (executeRequest "uptime")).effects.filter Effect.isRecordAction
        = [Effect.recordAction "uptime" "failure" "up 3 days"] ∧
      (ExecuteCommandHandler exampleEnv (exampleWorld ⟨"up 3 days", .deadlineExceeded⟩ none)
        (executeRequest "uptime")).env.DB.rows
        = [⟨1, "2024-01-01 00:00:00", "uptime", "failure", "up 3 days"⟩] :=
  ⟨(execute_audits_exactly_once exampleEnv
      (exampleWorld ⟨"up 3 days", .deadlineExceeded⟩ none) (executeRequest "uptime")
      ⟨"uptime"⟩ ⟨"uptime", "uptime", []⟩ rfl (by decide)).1,
    (execute_audits_exactly_once exampleEnv
      (exampleWorld ⟨"up 3 days", .deadlineExceeded⟩ none) (executeRequest "uptime")
      ⟨"uptime"⟩ ⟨"uptime", "uptime", []⟩ rfl (by decide)).2 rfl⟩

/-- C7. For a matched command the response carries the captured output unchanged whatever
the end of the process; it has status 200 and an empty error message exactly when the
process exited cleanly, and status 500 with an error message that is not empty
otherwise. -/
theorem execute_response_reports_outcome (env : APIEnv) (w : World) (r : Request)
    (req : ExecuteCommandRequest) (cmd : CommandDefinition)
    (hdec : w.decodeJSON r.Body = some req)
    (hfind : env.Config.Executor.Commands.find? (fun c => c.Name == req.Name) = some cmd) :
    ∃ errMsg,
      (ExecuteCommandHandler env w r).response.body
        = .executeJSON ⟨(w.run 30 cmd.Command cmd.Args).output, errMsg⟩ ∧
      ((w.run 30 cmd.Command cmd.Args).fate = .exited 0 →
        (ExecuteCommandHandler env w r).response.code = 200 ∧ errMsg = "") ∧
      ((w.run 30 cmd.Command cmd.Args).fate ≠ .exited 0 →
        (ExecuteCommandHandler env w r).response.code = 500 ∧ errMsg ≠ "") := by
  rw [← findCommand_eq_find] at hfind
  rw [handler_matched env w r req cmd hdec hfind]
  refine ⟨(ExecuteCommand w cmd).1.2.getD "", rfl, ?_, ?_⟩
  · intro hc
    have := (executeCommand_err_none_iff w cmd).mpr hc
    simp [this]
  · intro hc
    have hsome := (isSome_iff_not_clean w cmd).mpr hc
    refine ⟨by simp [hsome], ?_⟩
    rw [executeCommand_eq] at hsome ⊢
    cases hw : (w.run 30 cmd.Command cmd.Args).fate.waitError with
    | none => rw [hw] at hsome; simp at hsome
    | some e =>
      simp only [Option.map_some', Option.getD_some]
      exact wrapped_error_ne_empty cmd.Name e

/-- C7, at a request for `disk` whose process exits with status 2. -/
theorem execute_response_reports_outcome_witness :
    ∃ errMsg,
      (ExecuteCommandHandler exampleEnv (exampleWorld ⟨"df: no such file", .exited 2⟩ none)
        (executeRequest "disk")).response.body
        = .executeJSON ⟨"df: no such file", errMsg⟩ ∧
      (ProcessFate.exited 2 = .exited 0 →
        (ExecuteCommandHandler exampleEnv (exampleWorld ⟨"df: no such file", .exited 2⟩ none)
          (executeRequest "disk")).response.code = 200 ∧ errMsg = "") ∧
      (ProcessFate.exited 2 ≠ .exited 0 →
        (ExecuteCommandHandler exampleEnv (exampleWorld ⟨"df: no such file", .exited 2⟩ none)
          (executeRequest "disk")).response.code = 500 ∧ errMsg ≠ "") :=
  execute_response_reports_outcome exampleEnv
    (exampleWorld ⟨"df: no such file", .exited 2⟩ none) (executeRequest "disk")
    ⟨"disk"⟩ ⟨"disk", "df", ["-h"]⟩ rfl (by decide)

/-- C8. Two worlds that differ only in what the SQL driver answers give the same response
(status code, output, error message) and the same outside calls; for a matched command the
logger receives one `ERROR` entry naming the store error when the append fails and nothing
when it succeeds. -/
theorem execute_response_ignores_audit_failure (env : APIEnv) (w w2 : World) (r : Request)
    (hd : w2.decodeJSON = w.decodeJSON) (hr : w2.run = w.run) :
    (ExecuteCommandHandler env w2 r).response = (ExecuteCommandHandler env w r).response ∧
      (ExecuteCommandHandler env w2 r).effects = (ExecuteCommandHandler env w r).effects ∧
      ∀ req cmd, w.decodeJSON r.Body = some req →
        env.Config.Executor.Commands.find? (fun c => c.Name == req.Name) = some cmd →
        (ExecuteCommandHandler env w r).env.Logger =
          match w.sqlError with
          | some dbErr =>
            { env.Logger with
              written := env.Logger.written ++
                [⟨w.logNow, "ERROR", "Failed to record action to database: " ++ dbErr⟩] }
          | none => env.Logger := by
  have hexec : ∀ cmd, (ExecuteCommand w2 cmd).1.2 = (ExecuteCommand w cmd).1.2 := by
    intro cmd
    rw [executeCommand_eq, executeCommand_eq, hr]
  refine ⟨?_, ?_, ?_⟩
  · cases hdec : w.decodeJSON r.Body with
    | none => simp [ExecuteCommandHandler, hdec, hd]
    | some req =>
      cases hfind : findCommand env.Config.Executor.Commands req.Name with
      | none => simp [ExecuteCommandHandler, hdec, hd, hfind]
      | some cmd =>
        rw [handler_matched env w r req cmd hdec hfind,
          handler_matched env w2 r req cmd (by rw [hd]; exact hdec) hfind, hexec, hr]
  · cases hdec : w.decodeJSON r.Body with
    | none => simp [ExecuteCommandHandler, hdec, hd]
    | some req =>
      cases hfind : findCommand env.Config.Executor.Commands req.Name with
      | none => simp [ExecuteCommandHandler, hdec, hd, hfind]
      | some cmd =>
        rw [handler_matched env w r req cmd hdec hfind,
          handler_matched env w2 r req cmd (by rw [hd]; exact hdec) hfind, hexec, hr]
  · intro req cmd hdec hfind
    rw [← findCommand_eq_find] at hfind
    rw [handler_matched env w r req cmd hdec hfind]
    cases w.sqlError with
    | none => rfl
    | some e =>
      have hle : env.Logger.level.toNat ≤ LogLevel.LevelError.toNat := by
        cases env.Logger.level <;> decide
      simp [Logger.Error, Logger.log, hle]

/-- C8, at a request for `uptime` with a store that cannot prepare the statement, against
the same request with a healthy store. -/
theorem execute_response_ignores_audit_failure_witness :
    (ExecuteCommandHandler exampleEnv (exampleWorld ⟨"up", .exited 0⟩ none)
        (executeRequest "uptime")).response
      = (ExecuteCommandHandler exampleEnv
          (exampleWorld ⟨"up", .exited 0⟩ (some "database is locked"))
          (executeRequest "uptime")).response ∧
    (ExecuteCommandHandler exampleEnv
        (exampleWorld ⟨"up", .exited 0⟩ (some "database is locked"))
        (executeRequest "uptime")).env.Logger
      = ⟨.LevelInfo, [⟨"2024-01-01T00:00:00Z", "ERROR",
          "Failed to record action to database: database is locked"⟩]⟩ :=
  ⟨(execute_response_ignores_audit_failure exampleEnv
      (exampleWorld ⟨"up", .exited 0⟩ (some "database is locked"))
      (exampleWorld ⟨"up", .exited 0⟩ none) (executeRequest "uptime") rfl rfl).1,
    (execute_response_ignores_audit_failure exampleEnv
      (exampleWorld ⟨"up", .exited 0⟩ (some "database is locked"))
      (exampleWorld ⟨"up", .exited 0⟩ none) (executeRequest "uptime") rfl rfl).2.2
      ⟨"uptime"⟩ ⟨"uptime", "uptime", []⟩ rfl (by decide)⟩

theorem specOutcome_succeeded_iff (fate : ProcessFate) :
    specOutcome fate = .Succeeded ↔ fate = .exited 0 := by
  cases fate with
  | exited code => cases code <;> simp [specOutcome]
  | signaled s => simp [specOutcome]
  | startFailed m => simp [specOutcome]
  | deadlineExceeded => simp [specOutcome]

/-- C10 as stated fails. A run that the deadline killed and a run that was killed by
`SIGKILL` from elsewhere are `TimedOut` and `Failed` for the specification, and the
handler leaves exactly the same result for both (response, audit row, log, calls); against
a run that exited with status 1 the status code and the audit status are the same too. -/
theorem timed_out_run_not_distinguished :
    specOutcome .deadlineExceeded = .TimedOut ∧
    specOutcome (.signaled "killed") = .Failed ∧
    specOutcome (.exited 1) = .Failed ∧
    ExecuteCommandHandler exampleEnv (exampleWorld ⟨"partial", .deadlineExceeded⟩ none)
        (executeRequest "uptime")
      = ExecuteCommandHandler exampleEnv (exampleWorld ⟨"partial", .signaled "killed"⟩ none)
        (executeRequest "uptime") ∧
    (ExecuteCommandHandler exampleEnv (exampleWorld ⟨"partial", .deadlineExceeded⟩ none)
        (executeRequest "uptime")).response.code = 500 ∧
    (ExecuteCommandHandler exampleEnv (exampleWorld ⟨"partial", .exited 1⟩ none)
        (executeRequest "uptime")).response.code = 500 ∧
    (ExecuteCommandHandler exampleEnv (exampleWorld ⟨"partial", .deadlineExceeded⟩ none)
        (executeRequest "uptime")).env.DB.rows.map ActionHistory.Status = ["failure"] ∧
    (ExecuteCommandHandler exampleEnv (exampleWorld ⟨"partial", .exited 1⟩ none)
        (executeRequest "uptime")).env.DB.rows.map ActionHistory.Status = ["failure"] := by
  decide

/-- C10 as amended. The classification is two-way: `ExecuteCommand` returns no error, and
the handler answers 200 and records `success`, exactly when the specification's outcome is
`Succeeded` (a clean exit); for every other outcome, `TimedOut` as well as `Failed`, it
returns an error, and the handler answers 500 and records `failure`. -/
theorem execute_outcome_is_two_way (env : APIEnv) (w : World) (r : Request)
    (req : ExecuteCommandRequest) (cmd : CommandDefinition)
    (hdec : w.decodeJSON r.Body = some req)
    (hfind : env.Config.Executor.Commands.find? (fun c => c.Name == req.Name) = some cmd) :
    (specOutcome (w.run 30 cmd.Command cmd.Args).fate = .Succeeded →
      (ExecuteCommand w cmd).1.2 = none ∧
      (ExecuteCommandHandler env w r).response.code = 200 ∧
      Effect.recordAction cmd.Name "success" (w.run 30 cmd.Command cmd.Args).output
        ∈ (ExecuteCommandHandler env w r).effects) ∧
    (specOutcome (w.run 30 cmd.Command cmd.Args).fate ≠ .Succeeded →
      (ExecuteCommand w cmd).1.2.isSome = true ∧
      (ExecuteCommandHandler env w r).response.code = 500 ∧
      Effect.recordAction cmd.Name "failure" (w.run 30 cmd.Command cmd.Args).output
        ∈ (ExecuteCommandHandler env w r).effects) := by
  rw [← findCommand_eq_find] at hfind
  have hname := findCommand_name _ _ _ hfind
  rw [handler_matched env w r req cmd hdec hfind, specOutcome_succeeded_iff, hname]
  constructor
  · intro hc
    have := (executeCommand_err_none_iff w cmd).mpr hc
    simp [this]
  · intro hc
    have := (isSome_iff_not_clean w cmd).mpr
      (fun e => hc ((specOutcome_succeeded_iff _).mpr e))
    simp [this]

/-- C10 as amended, at a request for `uptime` whose process is killed by the deadline. -/
theorem execute_outcome_is_two_way_witness :
    (ExecuteCommand (exampleWorld ⟨"partial", .deadlineExceeded⟩ none)
        ⟨"uptime", "uptime", []⟩).1.2.isSome = true ∧
      (ExecuteCommandHandler exampleEnv (exampleWorld ⟨"partial", .deadlineExceeded⟩ none)
        (executeRequest "uptime")).response.code = 500 ∧
      Effect.recordAction "uptime" "failure" "partial"
        ∈ (ExecuteCommandHandler exampleEnv (exampleWorld ⟨"partial", .deadlineExceeded⟩ none)
            (executeRequest "uptime")).effects :=
  (execute_outcome_is_two_way exampleEnv (exampleWorld ⟨"partial", .deadlineExceeded⟩ none)
    (executeRequest "uptime") ⟨"uptime"⟩ ⟨"uptime", "uptime", []⟩ rfl (by decide)).2
    (by decide)

/-! ### File download -/

theorem download_touch_cases (env : APIEnv) (fs : FileSystem) (r : Request) (p : String)
    (hp : FsOp.stat p ∈ (DownloadFileHandler env fs r).ops ∨
      FsOp.serveFile p ∈ (DownloadFileHandler env fs r).ops) :
    Contains (TrimPrefix r.Path "/api/v1/files/") ".." = false ∧
    Contains (TrimPrefix r.Path "/api/v1/files/") "/" = false ∧
    p = Join [env.Config.FileServer.SecureDir, TrimPrefix r.Path "/api/v1/files/"] ∧
    ∃ absRoot absPath, Abs fs.Getwd env.Config.FileServer.SecureDir = .ok absRoot ∧
      Abs fs.Getwd p = .ok absPath ∧ prefixCheckDenies absPath absRoot = false := by
  unfold DownloadFileHandler at hp
  by_cases hen : env.Config.FileServer.Enabled = true
  swap
  · simp [hen] at hp
  simp only [hen, Bool.not_true, Bool.false_eq_true, if_false] at hp
  by_cases hbad : (Contains (TrimPrefix r.Path "/api/v1/files/") ".." ||
      Contains (TrimPrefix r.Path "/api/v1/files/") "/" ||
      Contains (TrimPrefix r.Path "/api/v1/files/") "\\") = true
  · simp [hbad] at hp
  simp only [hbad, if_false] at hp
  simp only [Bool.or_eq_true, not_or, Bool.not_eq_true] at hbad
  cases h1 : Abs fs.Getwd env.Config.FileServer.SecureDir with
  | error e => simp [h1] at hp
  | ok absRoot =>
    cases h2 : Abs fs.Getwd
        (Join [env.Config.FileServer.SecureDir, TrimPrefix r.Path "/api/v1/files/"]) with
    | error e => simp [h1, h2] at hp
    | ok absPath =>
      by_cases h3 : prefixCheckDenies absPath absRoot = true
      · simp [h1, h2, h3] at hp
      · simp only [h1, h2, h3, if_false] at hp
        have hpe : p = Join [env.Config.FileServer.SecureDir,
            TrimPrefix r.Path "/api/v1/files/"] := by
          cases hst : fs.Stat (Join [env.Config.FileServer.SecureDir,
              TrimPrefix r.Path "/api/v1/files/"]) with
          | error e =>
            cases e with
            | notExist => simpa [osStat, hst, IsNotExist] using hp
            | other errno => simpa [osStat, hst, IsNotExist] using hp
          | ok fi =>
            by_cases hdir : fi.IsDir = true
            · simpa [osStat, hst, IsNotExist, hdir] using hp
            · simpa [osStat, hst, IsNotExist, hdir] using hp
        refine ⟨hbad.1.1, hbad.1.2, hpe, absRoot, absPath, rfl, ?_, by simpa using h3⟩
        rw [hpe]; exact h2

theorem contains_of_mem (f : String) (c : Char) (h : c ∈ f.data) :
    Contains f ⟨[c]⟩ = true := by
  obtain ⟨a, b, hab⟩ := List.append_of_mem h
  simp only [Contains, decide_eq_true_eq]
  exact ⟨a, b, by rw [hab]; simp⟩

/-- C3. With a working directory that is an absolute path, every path that
`DownloadFileHandler` hands to `os.Stat` or to `http.ServeFile` has an absolute cleaned
form, and that form is the absolute cleaned form of the configured root or lies under it
element by element. -/
theorem download_touches_only_paths_within_root (env : APIEnv) (fs : FileSystem)
    (r : Request) (hwd : ∀ wd, fs.Getwd = .ok wd → IsAbs wd = true) (p : String)
    (hp : FsOp.stat p ∈ (DownloadFileHandler env fs r).ops ∨
      FsOp.serveFile p ∈ (DownloadFileHandler env fs r).ops) :
    ∃ absRoot absPath, Abs fs.Getwd env.Config.FileServer.SecureDir = .ok absRoot ∧
      Abs fs.Getwd p = .ok absPath ∧ IsAbs absRoot = true ∧ IsAbs absPath = true ∧
      withinRoot absRoot absPath := by
  obtain ⟨hdots, hslash, hpe, absRoot, absPath, h1, h2, _⟩ :=
    download_touch_cases env fs r p hp
  have hf1 := no_slash_of_contains _ hslash
  have hf2 := not_dotdot_of_contains _ hdots
  rw [hpe] at h2
  obtain ⟨R, hR, hroot, hfile⟩ := join_abs_stack fs.Getwd hwd _ _ absRoot absPath hf1 h1 h2
  refine ⟨absRoot, absPath, h1, by rw [hpe]; exact h2, (isAbs_iff _).mpr ⟨_, hroot⟩,
    (isAbs_iff _).mpr ⟨_, hfile⟩, ?_⟩
  exact withinRoot_of_stack R hR _ hf1 hf2 absRoot absPath hroot hfile

/-- C3, at the download of `report.txt` from the root `./secure` with working directory
`/home/app`: the path served is `secure/report.txt`. -/
theorem download_touches_only_paths_within_root_witness :
    ∃ absRoot absPath,
      Abs (exampleFS (.ok ⟨"report.txt", false⟩)).Getwd exampleEnv.Config.FileServer.SecureDir
        = .ok absRoot ∧
      Abs (exampleFS (.ok ⟨"report.txt", false⟩)).Getwd "secure/report.txt" = .ok absPath ∧
      IsAbs absRoot = true ∧ IsAbs absPath = true ∧ withinRoot absRoot absPath :=
  download_touches_only_paths_within_root exampleEnv (exampleFS (.ok ⟨"report.txt", false⟩))
    (downloadRequest "report.txt")
    (fun wd h => by
      have hw : "/home/app" = wd := Except.ok.inj h
      rw [← hw]
      decide)
    "secure/report.txt" (Or.inr (by decide))

/-- C4. With file serving enabled, a requested filename that contains `..`, a forward slash
or a backslash is answered with status 400 `Invalid filename` before any filesystem call is
made, so that the result is the same in every filesystem. -/
theorem download_rejects_unsafe_name (env : APIEnv) (fs : FileSystem) (r : Request)
    (hen : env.Config.FileServer.Enabled = true)
    (hbad : ['.', '.'] <:+: (TrimPrefix r.Path "/api/v1/files/").data ∨
      '/' ∈ (TrimPrefix r.Path "/api/v1/files/").data ∨
      '\\' ∈ (TrimPrefix r.Path "/api/v1/files/").data) :
    DownloadFileHandler env fs r = ⟨.responded ⟨400, .text "Invalid filename"⟩, []⟩ ∧
      ∀ fs2 : FileSystem, DownloadFileHandler env fs2 r = DownloadFileHandler env fs r := by
  have hc : (Contains (TrimPrefix r.Path "/api/v1/files/") ".." ||
      Contains (TrimPrefix r.Path "/api/v1/files/") "/" ||
      Contains (TrimPrefix r.Path "/api/v1/files/") "\\") = true := by
    rcases hbad with h | h | h
    · have : Contains (TrimPrefix r.Path "/api/v1/files/") ".." = true := by
        simp only [Contains, decide_eq_true_eq]; exact h
      simp [this]
    · have := contains_of_mem _ _ h
      have e : (⟨['/']⟩ : String) = "/" := rfl
      rw [e] at this
      simp [this]
    · have := contains_of_mem _ _ h
      have e : (⟨['\\']⟩ : String) = "\\" := rfl
      rw [e] at this
      simp [this]
  have hall : ∀ fs1 : FileSystem,
      DownloadFileHandler env fs1 r = ⟨.responded ⟨400, .text "Invalid filename"⟩, []⟩ := by
    intro fs1
    unfold DownloadFileHandler
    simp only [hen, Bool.not_true, Bool.false_eq_true, if_false, hc, if_true, httpError]
  exact ⟨hall fs, fun fs2 => by rw [hall fs2, hall fs]⟩

/-- C4, at the download of `../../etc/passwd`. -/
theorem download_rejects_unsafe_name_witness :
    DownloadFileHandler exampleEnv (exampleFS (.ok ⟨"passwd", false⟩))
        (downloadRequest "../../etc/passwd")
      = ⟨.responded ⟨400, .text "Invalid filename"⟩, []⟩ ∧
    ∀ fs2 : FileSystem, DownloadFileHandler exampleEnv fs2 (downloadRequest "../../etc/passwd")
      = DownloadFileHandler exampleEnv (exampleFS (.ok ⟨"passwd", false⟩))
          (downloadRequest "../../etc/passwd") :=
  download_rejects_unsafe_name exampleEnv (exampleFS (.ok ⟨"passwd", false⟩))
    (downloadRequest "../../etc/passwd") rfl (Or.inl (by decide))

/-- C5 as stated fails. For the absolute cleaned root `/srv/data` the comparison of line
167 lets the absolute cleaned path `/srv/database` pass, although that path is neither the
root nor under it: the comparison is on leading bytes, not on path elements. -/
theorem prefix_check_accepts_sibling_directory :
    IsAbs "/srv/data" = true ∧ Clean "/srv/data" = "/srv/data" ∧
    IsAbs "/srv/database" = true ∧ Clean "/srv/database" = "/srv/database" ∧
    ¬ withinRoot "/srv/data" "/srv/database" ∧
    prefixCheckDenies "/srv/database" "/srv/data" = false := by
  decide

/-- C5 as amended. On its own the comparison of line 167 denies every absolute cleaned
candidate that is neither the root nor under it, except a candidate that continues the
name of the root's last element (same elements before it, that element properly
extended). In `DownloadFileHandler` the comparison only sees the path joined from a name
that passed the syntactic pre-check; that path is the root or under it, the comparison
does not deny it, and the handler goes on to `os.Stat`. -/
theorem prefix_check_denies_outside_unless_name_extended :
    (∀ root cand : String, IsAbs root = true → Clean root = root →
      IsAbs cand = true → Clean cand = cand → ¬ withinRoot root cand →
      prefixCheckDenies cand root = true ∨
        ∃ parent last ext rest, ext ≠ [] ∧ pathComponents root = parent ++ [last] ∧
          pathComponents cand = parent ++ (last ++ ext) :: rest) ∧
    (∀ (env : APIEnv) (fs : FileSystem) (r : Request) (absRoot absFile : String),
      (∀ wd, fs.Getwd = .ok wd → IsAbs wd = true) →
      env.Config.FileServer.Enabled = true →
      ¬ ['.', '.'] <:+: (TrimPrefix r.Path "/api/v1/files/").data →
      '/' ∉ (TrimPrefix r.Path "/api/v1/files/").data →
      '\\' ∉ (TrimPrefix r.Path "/api/v1/files/").data →
      Abs fs.Getwd env.Config.FileServer.SecureDir = .ok absRoot →
      Abs fs.Getwd (Join [env.Config.FileServer.SecureDir,
        TrimPrefix r.Path "/api/v1/files/"]) = .ok absFile →
      prefixCheckDenies absFile absRoot = false ∧ withinRoot absRoot absFile ∧
        FsOp.stat (Join [env.Config.FileServer.SecureDir,
          TrimPrefix r.Path "/api/v1/files/"]) ∈ (DownloadFileHandler env fs r).ops) := by
  constructor
  · intro root cand hra hrc hca hcc hout
    obtain ⟨R, hR, hroot⟩ := clean_abs_form root hra hrc
    obtain ⟨C, hC, hcand⟩ := clean_abs_form cand hca hcc
    have hcr : pathComponents root = R := by
      unfold pathComponents; rw [hroot]; exact components_rooted R hR
    have hcc2 : pathComponents cand = C := by
      unfold pathComponents; rw [hcand]; exact components_rooted C hC
    by_cases hden : prefixCheckDenies cand root = true
    · exact Or.inl hden
    · right
      have hpre : root.data <+: cand.data := by
        simpa [prefixCheckDenies, HasPrefix] using hden
      rw [hroot, hcand, List.cons_prefix_cons] at hpre
      rcases joinSlash_prefix_cases R C hR hC hpre.2 with h | h
      · exact absurd (by unfold withinRoot; rw [hcr, hcc2]; exact h) hout
      · rw [hcr, hcc2]; exact h
  · intro env fs r absRoot absFile hwd hen hdots hslash hback h1 h2
    have hcd : Contains (TrimPrefix r.Path "/api/v1/files/") ".." = false := by
      simp only [Contains, decide_eq_false_iff_not]; exact hdots
    have hcs : Contains (TrimPrefix r.Path "/api/v1/files/") "/" = false :=
      not_contains_of_not_mem _ _ hslash
    have hcb : Contains (TrimPrefix r.Path "/api/v1/files/") "\\" = false :=
      not_contains_of_not_mem _ _ hback
    have hpass := prefix_check_passes_after_precheck fs.Getwd hwd _ _ absRoot absFile
      hcs hcd h1 h2
    obtain ⟨R, hR, hroot, hfile⟩ := join_abs_stack fs.Getwd hwd _ _ absRoot absFile
      (no_slash_of_contains _ hcs) h1 h2
    refine ⟨hpass, withinRoot_of_stack R hR _ (no_slash_of_contains _ hcs)
      (not_dotdot_of_contains _ hcd) absRoot absFile hroot hfile, ?_⟩
    unfold DownloadFileHandler
    cases hst : fs.Stat (Join [env.Config.FileServer.SecureDir,
        TrimPrefix r.Path "/api/v1/files/"]) with
    | error e =>
      cases e with
      | notExist => simp [hen, hcd, hcs, hcb, h1, h2, hpass, osStat, hst, IsNotExist]
      | other errno => simp [hen, hcd, hcs, hcb, h1, h2, hpass, osStat, hst, IsNotExist]
    | ok fi =>
      by_cases hdir : fi.IsDir = true
      · simp [hen, hcd, hcs, hcb, h1, h2, hpass, osStat, hst, IsNotExist, hdir]
      · simp [hen, hcd, hcs, hcb, h1, h2, hpass, osStat, hst, IsNotExist, hdir]

/-- C5 as amended, at the root `/srv/data` with the outside candidate `/srv/other/x`, which
is denied, and at the download of `report.txt` from the root `./secure` with working
directory `/home/app`, which is not. -/
theorem prefix_check_denies_outside_unless_name_extended_witness :
    (prefixCheckDenies "/srv/other/x" "/srv/data" = true ∨
      ∃ parent last ext rest, ext ≠ [] ∧ pathComponents "/srv/data" = parent ++ [last] ∧
        pathComponents "/srv/other/x" = parent ++ (last ++ ext) :: rest) ∧
    (prefixCheckDenies "/home/app/secure/report.txt" "/home/app/secure" = false ∧
      withinRoot "/home/app/secure" "/home/app/secure/report.txt" ∧
      FsOp.stat (Join [exampleEnv.Config.FileServer.SecureDir,
          TrimPrefix (downloadRequest "report.txt").Path "/api/v1/files/"])
        ∈ (DownloadFileHandler exampleEnv (exampleFS (.ok ⟨"report.txt", false⟩))
            (downloadRequest "report.txt")).ops) :=
  ⟨prefix_check_denies_outside_unless_name_extended.1 "/srv/data" "/srv/other/x"
      (by decide) (by decide) (by decide) (by decide) (by decide),
    prefix_check_denies_outside_unless_name_extended.2 exampleEnv
      (exampleFS (.ok ⟨"report.txt", false⟩)) (downloadRequest "report.txt")
      "/home/app/secure" "/home/app/secure/report.txt"
      (fun wd h => by
        have hw : "/home/app" = wd := Except.ok.inj h
        rw [← hw]
        decide)
      rfl (by decide) (by decide) (by decide) rfl rfl⟩

theorem download_panics_on_stat_error (env : APIEnv) (fs : FileSystem) (r : Request)
    (hwd : ∀ wd, fs.Getwd = .ok wd → IsAbs wd = true)
    (hen : env.Config.FileServer.Enabled = true)
    (hdots : Contains (TrimPrefix r.Path "/api/v1/files/") ".." = false)
    (hslash : Contains (TrimPrefix r.Path "/api/v1/files/") "/" = false)
    (hback : Contains (TrimPrefix r.Path "/api/v1/files/") "\\" = false)
    (absRoot absFile : String)
    (h1 : Abs fs.Getwd env.Config.FileServer.SecureDir = .ok absRoot)
    (h2 : Abs fs.Getwd (Join [env.Config.FileServer.SecureDir,
      TrimPrefix r.Path "/api/v1/files/"]) = .ok absFile)
    (errno : String)
    (hst : fs.Stat (Join [env.Config.FileServer.SecureDir,
      TrimPrefix r.Path "/api/v1/files/"]) = .error (.other errno)) :
    (DownloadFileHandler env fs r).completion
      = .panicked "invalid memory address or nil pointer dereference" := by
  have hpass := prefix_check_passes_after_precheck fs.Getwd hwd _ _ absRoot absFile
    hslash hdots h1 h2
  unfold DownloadFileHandler
  simp [hen, hdots, hslash, hback, h1, h2, hpass, osStat, hst, IsNotExist]

/-- C9 fails on the code. When `os.Stat` fails with an error other than not-exist, the
handler evaluates `info.IsDir()` on the `nil` file info and panics in place of writing a
response. -/
theorem download_panics_when_stat_is_denied :
    DownloadFileHandler exampleEnv (exampleFS (.error (.other "permission denied")))
        (downloadRequest "report.txt")
      = ⟨.panicked "invalid memory address or nil pointer dereference",
          [.abs "./secure", .abs "secure/report.txt", .stat "secure/report.txt"]⟩ := by
  decide

end ApiExecutor
